import Mathlib

/-!
Verification development for the heuristic Java source analyzer and
response-to-code extractor of the test-case-generator repository
(file `deepseek_coder_server.py`, class `DeepSeekV2Generator`).

All source strings are modelled as `List Char`.  The Python `re` module is
modelled by a small backtracking engine (`reRun`) over a pattern AST (`RE`)
that reproduces Python semantics on the patterns used by the source:
leftmost search, greedy quantifiers, ordered alternation and per-character
backtracking.  Each regular expression of the source is transliterated into
a pattern value below.
-/

set_option maxRecDepth 20000

namespace TCG

/-- Character constants written via code points (backtick, braces). -/
def btick : Char := Char.ofNat 96

def lbrace : Char := Char.ofNat 123

def rbrace : Char := Char.ofNat 125

/-- Python `str.strip()` / `\s` whitespace set (ASCII part). -/
def isPyWs (c : Char) : Bool :=
  c = ' ' || c = '\t' || c = '\n' || c = '\r' || c = '\x0b' || c = '\x0c'

/-- Python `\w` (ASCII part): letters, digits, underscore. -/
def isWordChar (c : Char) : Bool := c.isAlphanum || c = '_'

/-- Python `[a-zA-Z_]`. -/
def isIdentStart (c : Char) : Bool := c.isAlpha || c = '_'

/-- Python `[^)]`. -/
def notRParen (c : Char) : Bool := !(c = ')')

/-- Python `[\w.]`. -/
def isWordDot (c : Char) : Bool := isWordChar c || c = '.'

/-- Python `str.strip()`: drop ASCII whitespace from both ends. -/
def pyStrip (l : List Char) : List Char :=
  ((l.dropWhile isPyWs).reverse.dropWhile isPyWs).reverse

/-- Count occurrences of a character. -/
def countChar (c : Char) : List Char → Nat
  | [] => 0
  | x :: xs => (if x = c then 1 else 0) + countChar c xs

/-- Boolean test that `p` is a leading segment of `l`. -/
def startsWithChars : List Char → List Char → Bool
  | [], _ => true
  | _ :: _, [] => false
  | p :: ps, c :: cs => p = c && startsWithChars ps cs

/-- Boolean substring test. -/
def containsSub (pat : List Char) : List Char → Bool
  | [] => startsWithChars pat []
  | c :: rest => startsWithChars pat (c :: rest) || containsSub pat rest

/-- Python `str.split(',')`. -/
def splitOnComma : List Char → List (List Char)
  | [] => [[]]
  | c :: rest =>
    if c = ',' then [] :: splitOnComma rest
    else
      match splitOnComma rest with
      | [] => [[c]]
      | p :: ps => (c :: p) :: ps

/-- Python `str.rfind(' ')`: index of the last space, if any. -/
def rfindSpace : List Char → Option Nat
  | [] => none
  | c :: rest =>
    match rfindSpace rest with
    | some i => some (i + 1)
    | none => if c = ' ' then some 0 else none

/-! ## Regex engine -/

/-- Pattern AST covering the constructs used by the source's regexes. -/
inductive RE where
  | eps : RE
  | lit : Char → RE
  | cls : (Char → Bool) → RE
  | seq : RE → RE → RE
  | alt : RE → RE → RE
  | star : RE → RE
  | group : Nat → RE → RE

/-- Capture environment: most recent binding of each group number wins. -/
abbrev Caps := List (Nat × List Char)

/-- Read a capture group, defaulting to the empty string. -/
def getCapD (n : Nat) (caps : Caps) : List Char :=
  match List.find? (fun p => p.1 = n) caps with
  | some p => p.2
  | none => []

/-- Sequence of literal characters. -/
def rstr : List Char → RE
  | [] => RE.eps
  | c :: rest => RE.seq (RE.lit c) (rstr rest)

/-- Concatenation of a pattern list. -/
def rcat : List RE → RE
  | [] => RE.eps
  | r :: rs => RE.seq r (rcat rs)

/-- Greedy `+`. -/
def rplus (r : RE) : RE := RE.seq r (RE.star r)

/-- Greedy `?`. -/
def ropt (r : RE) : RE := RE.alt r RE.eps

/-- First-success choice evaluated lazily by the kernel. -/
def orElseO {α : Type} (a b : Option α) : Option α :=
  match a with
  | some x => some x
  | none => b

/-- Backtracking matcher in continuation style.  Alternation and greedy
iteration explore alternatives in the same order as Python's engine; the
first success wins.  `fuel` bounds the recursion depth and is chosen large
enough (relative to pattern size and input length) never to be exhausted on
the transliterated patterns: iteration requires consuming at least one
character per round, exactly as every quantified subpattern of the source's
regexes does. -/
def reRun : Nat → RE → List Char → Caps →
    (List Char → Caps → Option (List Char × Caps)) → Option (List Char × Caps)
  | 0, _, _, _, _ => none
  | Nat.succ f, re, s, caps, k =>
    match re with
    | RE.eps => k s caps
    | RE.lit c =>
      match s with
      | [] => none
      | x :: xs => if x = c then k xs caps else none
    | RE.cls p =>
      match s with
      | [] => none
      | x :: xs => if p x then k xs caps else none
    | RE.seq a b => reRun f a s caps (fun s' caps' => reRun f b s' caps' k)
    | RE.alt a b => orElseO (reRun f a s caps k) (reRun f b s caps k)
    | RE.star a =>
      orElseO
        (reRun f a s caps (fun s' caps' =>
          if s'.length < s.length then reRun f (RE.star a) s' caps' k else none))
        (k s caps)
    | RE.group n a =>
      reRun f a s caps
        (fun s' caps' => k s' ((n, s.take (s.length - s'.length)) :: caps'))

/-- Size of a pattern, used to compute an adequate fuel value. -/
def reSize : RE → Nat
  | RE.eps => 1
  | RE.lit _ => 1
  | RE.cls _ => 1
  | RE.seq a b => reSize a + reSize b + 1
  | RE.alt a b => reSize a + reSize b + 1
  | RE.star a => reSize a + 1
  | RE.group _ a => reSize a + 1

/-- Anchored match at the start of `s`: consumed length and captures. -/
def reMatch (re : RE) (s : List Char) : Option (Nat × Caps) :=
  match reRun ((reSize re + 2) * (s.length + 2)) re s []
      (fun rem caps => some (rem, caps)) with
  | some (rem, caps) => some (s.length - rem.length, caps)
  | none => none

/-- Python `re.search` scanning loop: try each start position left to
right; returns absolute start position, consumed length and captures. -/
def reSearchPos (re : RE) : List Char → Nat → Option (Nat × Nat × Caps)
  | [], pos =>
    match reMatch re [] with
    | some (n, caps) => some (pos, n, caps)
    | none => none
  | c :: xs, pos =>
    match reMatch re (c :: xs) with
    | some (n, caps) => some (pos, n, caps)
    | none => reSearchPos re xs (pos + 1)

/-- Python `re.search`. -/
def reSearch (re : RE) (s : List Char) : Option (Nat × Nat × Caps) :=
  reSearchPos re s 0

/-- Python `re.finditer` / `re.findall`: successive non-overlapping
matches, scanning left to right and resuming after each match (one
character further on an empty match, as Python does). -/
def reFindAllAux (re : RE) : Nat → List Char → Nat → List (Nat × Nat × Caps)
  | 0, _, _ => []
  | Nat.succ fuel, s, pos =>
    match reMatch re s with
    | some (n, caps) =>
      if n = 0 then
        (pos, 0, caps) ::
          (match s with
           | [] => []
           | _ :: xs => reFindAllAux re fuel xs (pos + 1))
      else (pos, n, caps) :: reFindAllAux re fuel (s.drop n) (pos + n)
    | none =>
      match s with
      | [] => []
      | _ :: xs => reFindAllAux re fuel xs (pos + 1)

/-- All matches of `re` in `s` as (start, length, captures) triples. -/
def reFindAll (re : RE) (s : List Char) : List (Nat × Nat × Caps) :=
  reFindAllAux re (s.length + 1) s 0

/-! ## Transliterated patterns of `deepseek_coder_server.py` -/

/-- Python `\s` as a pattern. -/
def wsC : RE := RE.cls isPyWs

/-- Pattern of `_extract_class_name` (line 980):
`public\s+(?:class|interface|enum)\s+([\w]+)`. -/
def reClassName : RE :=
  rcat [rstr "public".data, rplus wsC,
        RE.alt (rstr "class".data)
          (RE.alt (rstr "interface".data) (rstr "enum".data)),
        rplus wsC, RE.group 1 (rplus (RE.cls isWordChar))]

/-- Character class `[\w<>,.?\s\[\]]` of the method patterns. -/
def isRetTypeChar (c : Char) : Bool :=
  isWordChar c || c = '<' || c = '>' || c = ',' || c = '.' || c = '?' ||
    isPyWs c || c = '[' || c = ']'

/-- Character class `[\w,.\s]` of the `throws` clause. -/
def isThrowsChar (c : Char) : Bool :=
  isWordChar c || c = ',' || c = '.' || isPyWs c

/-- Pattern of `_extract_methods_with_details` (lines 153-155):
`public\s+(?:static\s+|final\s+)?([\w<>,.?\s\[\]]+)\s+([a-zA-Z_]\w*)\s*\(([^)]*)\)\s*(?:throws\s+[\w,.\s]+)?\s*LBRACE`. -/
def reMethod : RE :=
  rcat [rstr "public".data, rplus wsC,
        ropt (RE.alt (RE.seq (rstr "static".data) (rplus wsC))
                     (RE.seq (rstr "final".data) (rplus wsC))),
        RE.group 1 (rplus (RE.cls isRetTypeChar)), rplus wsC,
        RE.group 2 (RE.seq (RE.cls isIdentStart) (RE.star (RE.cls isWordChar))),
        RE.star wsC, RE.lit '(',
        RE.group 3 (RE.star (RE.cls notRParen)), RE.lit ')',
        RE.star wsC,
        ropt (rcat [rstr "throws".data, rplus wsC, rplus (RE.cls isThrowsChar)]),
        RE.star wsC, RE.lit lbrace]

/-- Pattern of `_analyze_code_flow` (lines 1287-1289), identical to the
method pattern except that the visibility is a captured alternation
`(public|private|protected)` and `static`/`final` are two separate
optional groups. -/
def reFlowMethod : RE :=
  rcat [RE.group 1 (RE.alt (rstr "public".data)
          (RE.alt (rstr "private".data) (rstr "protected".data))),
        rplus wsC,
        ropt (RE.seq (rstr "static".data) (rplus wsC)),
        ropt (RE.seq (rstr "final".data) (rplus wsC)),
        RE.group 2 (rplus (RE.cls isRetTypeChar)), rplus wsC,
        RE.group 3 (RE.seq (RE.cls isIdentStart) (RE.star (RE.cls isWordChar))),
        RE.star wsC, RE.lit '(',
        RE.group 4 (RE.star (RE.cls notRParen)), RE.lit ')',
        RE.star wsC,
        ropt (rcat [rstr "throws".data, rplus wsC, rplus (RE.cls isThrowsChar)]),
        RE.star wsC, RE.lit lbrace]

/-- Pattern `package\s+[\w.]+;` used by `_clean_generated_code`
(line 1001). -/
def rePackageDecl : RE :=
  rcat [rstr "package".data, rplus wsC, rplus (RE.cls isWordDot), RE.lit ';']

/-- Character class `[\w.<>\[\]]` of the field-injection pattern. -/
def isFieldTypeChar (c : Char) : Bool :=
  isWordChar c || c = '.' || c = '<' || c = '>' || c = '[' || c = ']'

/-- Field-injection pattern of `_extract_dependencies` (lines 1038-1046):
`@(Autowired|Inject|Resource|Mock)\s+(?:private|public|protected)?\s*(?:static\s+)?(?:final\s+)?([\w.<>\[\]]+)\s+(\w+);`. -/
def reFieldInj : RE :=
  rcat [RE.lit '@',
        RE.group 1 (RE.alt (rstr "Autowired".data)
          (RE.alt (rstr "Inject".data)
            (RE.alt (rstr "Resource".data) (rstr "Mock".data)))),
        rplus wsC,
        ropt (RE.alt (rstr "private".data)
          (RE.alt (rstr "public".data) (rstr "protected".data))),
        RE.star wsC,
        ropt (RE.seq (rstr "static".data) (rplus wsC)),
        ropt (RE.seq (rstr "final".data) (rplus wsC)),
        RE.group 2 (rplus (RE.cls isFieldTypeChar)), rplus wsC,
        RE.group 3 (rplus (RE.cls isWordChar)), RE.lit ';']

/-- Constructor pattern of `_extract_dependencies` (lines 1058-1060):
`public\s+` + class name + `\s*\(([^)]*)\)`. -/
def reCtor (cn : List Char) : RE :=
  rcat [rstr "public".data, rplus wsC, rstr cn, RE.star wsC,
        RE.lit '(', RE.group 1 (RE.star (RE.cls notRParen)), RE.lit ')']

/-- Character class `[\w.<>]` of the constructor-parameter pattern. -/
def isCtorTypeChar (c : Char) : Bool :=
  isWordChar c || c = '.' || c = '<' || c = '>'

/-- Constructor-parameter pattern (line 1067): `([\w.<>]+)\s+(\w+)`. -/
def reParamPair : RE :=
  rcat [RE.group 1 (rplus (RE.cls isCtorTypeChar)), rplus wsC,
        RE.group 2 (rplus (RE.cls isWordChar))]

/-- Pattern of `_find_conditional_branches` (line 1409):
`if\s*\(([^)]+)\)`. -/
def reIfStmt : RE :=
  rcat [rstr "if".data, RE.star wsC, RE.lit '(',
        RE.group 1 (rplus (RE.cls notRParen)), RE.lit ')']

/-- Pattern of `_find_exception_paths` (line 1443):
`throw\s+new\s+(\w+(?:Exception|Error))\s*\([^)]*\)`. -/
def reThrowStmt : RE :=
  rcat [rstr "throw".data, rplus wsC, rstr "new".data, rplus wsC,
        RE.group 1 (RE.seq (rplus (RE.cls isWordChar))
          (RE.alt (rstr "Exception".data) (rstr "Error".data))),
        RE.star wsC, RE.lit '(', RE.star (RE.cls notRParen), RE.lit ')']

/-- Async-marker patterns of `_analyze_class_characteristics`
(lines 1150-1157): `CompletableFuture`, `@Async`, `async\w*Service`,
`\.runAsync\(`, `\.supplyAsync\(`, `applicationTaskExecutor`. -/
def reAsyncPats : List RE :=
  [rstr "CompletableFuture".data,
   rstr "@Async".data,
   rcat [rstr "async".data, RE.star (RE.cls isWordChar), rstr "Service".data],
   rstr ".runAsync(".data,
   rstr ".supplyAsync(".data,
   rstr "applicationTaskExecutor".data]

/-! ## Source fact extraction -/

/-- One parsed parameter, see `_extract_methods_with_details`. -/
structure JParam where
  ty : List Char
  nm : List Char
  deriving DecidableEq, Repr

/-- One extracted method, see `_extract_methods_with_details`. -/
structure MethodFact where
  name : List Char
  returnType : List Char
  params : List JParam
  deriving DecidableEq, Repr

/-- One extracted dependency (`name`/`type` dict entries of
`_extract_dependencies`). -/
structure Dep where
  name : List Char
  ty : List Char
  deriving DecidableEq, Repr

/-- `_extract_class_name` (lines 977-984): first occurrence of the public
type-declaration pattern; `None` when it does not occur. -/
def extractClassName (code : List Char) : Option (List Char) :=
  match reSearch reClassName code with
  | some (_, _, caps) => some (getCapD 1 caps)
  | none => none

/-- Parameter-list parsing of `_extract_methods_with_details`
(lines 161, 167-179): strip the captured group, split on commas, strip
each piece, and split each piece into type/name at its last space;
pieces without a space are dropped. -/
def parseParamsGroup (g : List Char) : List JParam :=
  let ps := pyStrip g
  if ps = [] then []
  else
    (splitOnComma ps).filterMap (fun piece =>
      let p := pyStrip piece
      match rfindSpace p with
      | some i => some ⟨pyStrip (p.take i), pyStrip (p.drop i)⟩
      | none => none)

/-- `_extract_methods_with_details` (lines 146-187): every match of the
method pattern, excluding matches whose name equals the extracted class
name (constructor exclusion, line 164). -/
def extractMethodsWithDetails (code : List Char) : List MethodFact :=
  (reFindAll reMethod code).filterMap (fun m =>
    let nm := pyStrip (getCapD 2 m.2.2)
    if extractClassName code = some nm then none
    else some ⟨nm, pyStrip (getCapD 1 m.2.2), parseParamsGroup (getCapD 3 m.2.2)⟩)

/-- Field-injection pass of `_extract_dependencies` (lines 1038-1050). -/
def extractFieldDeps (code : List Char) : List Dep :=
  (reFindAll reFieldInj code).map (fun m =>
    ⟨getCapD 3 m.2.2, getCapD 2 m.2.2⟩)

/-- Constructor pass of `_extract_dependencies` (lines 1053-1069): the
parameter pairs found inside the first `public <ClassName>(...)` match. -/
def extractCtorParams (code : List Char) : List Dep :=
  match extractClassName code with
  | none => []
  | some cn =>
    match reSearch (reCtor cn) code with
    | none => []
    | some (_, _, caps) =>
      (reFindAll reParamPair (getCapD 1 caps)).map (fun m =>
        ⟨getCapD 2 m.2.2, pyStrip (getCapD 1 m.2.2)⟩)

/-- One step of the Python dict comprehension
`{dep['name']: dep for dep in dependencies}` (line 1075): an existing key
keeps its position and takes the new value, a new key is appended. -/
def dictInsert (acc : List Dep) (d : Dep) : List Dep :=
  if acc.any (fun e => e.name = d.name) then
    acc.map (fun e => if e.name = d.name then d else e)
  else acc ++ [d]

/-- The dict-comprehension deduplication of line 1075: for each distinct
name, in order of first appearance, the last entry with that name. -/
def dedupByName (l : List Dep) : List Dep :=
  l.foldl dictInsert []

/-- One step of the constructor loop (lines 1069-1072): a constructor
parameter is appended only when no dependency with its name is already
present. -/
def mergeIns (acc : List Dep) (d : Dep) : List Dep :=
  if acc.any (fun e => e.name = d.name) then acc else acc ++ [d]

/-- `_extract_dependencies` (lines 1029-1077): field-injected facts, then
constructor parameters whose name is not already present (lines
1069-1072), then the dict deduplication of line 1075. -/
def extractDependencies (code : List Char) : List Dep :=
  dedupByName ((extractCtorParams code).foldl mergeIns (extractFieldDeps code))

/-! ## Response cleaning (`_clean_generated_code`) -/

/-- Extra character constants (double quote, backslash) via code points. -/
def dquote : Char := Char.ofNat 34

def bslash : Char := Char.ofNat 92

/-- The two backticks and `java` that follow the leading backtick of a
`java` code fence. -/
def fenceJavaTail : List Char := [btick, btick, 'j', 'a', 'v', 'a']

/-- Left-to-right scan of
`re.sub(r'BTICK BTICK BTICK java\n?', '', s)` (line 997): `skip > 0`
silently consumes a character of an already-recognized fence marker;
at `skip = 0` a marker occurrence (three backticks, `java`, optional
newline) starts a new skip, and any other character is emitted. -/
def subFJAux : Nat → List Char → List Char
  | _ + 1, [] => []
  | skip + 1, _ :: rest => subFJAux skip rest
  | 0, [] => []
  | 0, c :: rest =>
    if c = btick && startsWithChars fenceJavaTail rest then
      match rest.drop 6 with
      | nl :: _ => if nl = '\n' then subFJAux 7 rest else subFJAux 6 rest
      | [] => subFJAux 6 rest
    else c :: subFJAux 0 rest

/-- Python `re.sub(r'BTICK BTICK BTICK java\n?', '', s)` (line 997). -/
def subFenceJava (l : List Char) : List Char := subFJAux 0 l

/-- Left-to-right scan of the second substitution, removing each
three-backtick occurrence (line 998). -/
def subFAux : Nat → List Char → List Char
  | _ + 1, [] => []
  | skip + 1, _ :: rest => subFAux skip rest
  | 0, [] => []
  | 0, c :: rest =>
    if c = btick && startsWithChars [btick, btick] rest then subFAux 2 rest
    else c :: subFAux 0 rest

/-- Python `re.sub` removing each three-backtick occurrence (line 998). -/
def subFence (l : List Char) : List Char := subFAux 0 l

/-- The error banner prefixed by `_clean_generated_code` when no package
declaration is found (line 1009). -/
def errBanner : List Char :=
  "// AI Generation Error: Could not find package declaration.\n".data

set_option linter.unusedVariables false in
/-- `_clean_generated_code` (lines 992-1011): strip surrounding
whitespace, delete fence markers, then cut from the first
package-declaration match; if none is found, return the text prefixed
with the error banner.  `className` only feeds a log message. -/
def cleanGeneratedCode (generatedText className : List Char) : List Char :=
  let cleaned := subFence (subFenceJava (pyStrip generatedText))
  match reSearch rePackageDecl cleaned with
  | some (start, _, _) => cleaned.drop start
  | none => errBanner ++ cleaned

/-- Template pieces of `_generate_fallback_demo_class` (lines 1094-1127),
around the interpolated class name. -/
def fallbackMid : List Char :=
  (  "\n".data ++
     "\n".data ++
     "import org.junit.jupiter.api.Test;\n".data ++
     "import static org.junit.jupiter.api.Assertions.fail;\n".data ++
     "\n".data ++
     "/**\n".data ++
     (" * ".data ++ List.replicate 65 '=' ++ "\n".data) ++
     " *                          IMPORTANT\n".data ++
     (" * ".data ++ List.replicate 65 '=' ++ "\n".data) ++
     " * This is a fallback test class generated because the AI model\n".data ++
     " * failed to produce a valid output.\n".data ++
     " *\n".data ++
     " * This class is NOT a valid JUnit test and WILL NOT COMPILE.\n".data ++
     " *\n".data ++
     " * PLEASE REVIEW THE LOGS FOR THE AI MODEL\x27S OUTPUT AND ERRORS.\n".data ++
     " *\n".data ++
     " * Common reasons for failure:\n".data ++
     " * 1. The Java source file has syntax errors.\n".data ++
     " * 2. The AI model produced incomplete or malformed code.\n".data ++
     " * 3. A timeout occurred during generation.\n".data ++
     (" * ".data ++ List.replicate 65 '=' ++ "\n".data) ++
     " */\n".data ++
     "class ".data )

/-- Closing part of the fallback template. -/
def fallbackPost : List Char :=
  (  "Test \x7b\n".data ++
     "\n".data ++
     "    @Test\n".data ++
     "    void generationFailed() \x7b\n".data ++
     "        fail(\"AI test generation failed. Please see the comments in this file and check the application logs for more details.\");\n".data ++
     "    \x7d\n".data ++
     "    \x7d\n".data )

/-- `_generate_fallback_demo_class` (lines 1094-1127): the deterministic
placeholder unit. -/
def fallbackDemoClass (className : List Char) (packageName : Option (List Char)) : List Char :=
  let packageDecl : List Char :=
    match packageName with
    | some p => "package ".data ++ p ++ ";".data
    | none => []
  packageDecl ++ fallbackMid ++ className ++ fallbackPost

/-! ## Completion gateway (`generate_with_deepseek_v2`) -/

/-- Outcome of one completion attempt. -/
inductive GenOutcome where
  | ok (text : List Char)
  | err (msg : List Char)
  deriving DecidableEq, Repr

/-- Successful-HTTP path of `generate_with_deepseek_v2` (lines 90-101):
the JSON field `response` is read with default `''` and returned as a
success; the function performs no emptiness check, so an empty response
field is a success carrying the empty text. -/
def gatewayResponseText (responseField : Option (List Char)) : GenOutcome :=
  GenOutcome.ok (responseField.getD [])

/-! ## Method-body recovery (`_extract_method_body`) -/

/-- The brace-balancing while loop of `_extract_method_body`
(lines 1336-1353), one constructor case per loop iteration: `d + 1` is
the current `brace_count`, `inStr`/`esc` are `in_string`/`escape_next`,
`acc` counts consumed characters; the loop stops with `some acc` when the
count reaches zero and fails with `none` at the end of input. -/
def scanLoop : List Char → Nat → Bool → Bool → Nat → Option Nat
  | _, 0, _, _, acc => some acc
  | [], _ + 1, _, _, _ => none
  | ch :: rest, d + 1, inStr, esc, acc =>
    if esc then scanLoop rest (d + 1) inStr false (acc + 1)
    else if ch = bslash then scanLoop rest (d + 1) inStr true (acc + 1)
    else if ch = dquote then scanLoop rest (d + 1) (!inStr) false (acc + 1)
    else if inStr then scanLoop rest (d + 1) inStr false (acc + 1)
    else if ch = lbrace then scanLoop rest (d + 2) inStr false (acc + 1)
    else if ch = rbrace then scanLoop rest d inStr false (acc + 1)
    else scanLoop rest (d + 1) inStr false (acc + 1)

/-- Index of the first opening brace (the search loop of lines
1328-1332). -/
def firstBraceIdx : List Char → Option Nat
  | [] => none
  | c :: rest =>
    if c = lbrace then some 0 else (firstBraceIdx rest).map (· + 1)

/-- `_extract_method_body` (lines 1320-1358): find the first `LBRACE` at
or after `startPos`, then scan with the brace counter starting at 1; on
rebalance return the slice from that brace through the matching close. -/
def extractMethodBody (javaCode : List Char) (startPos : Nat) : Option (List Char) :=
  let t := javaCode.drop startPos
  (firstBraceIdx t).bind (fun j =>
    (scanLoop (t.drop (j + 1)) 1 false false 0).map (fun consumed =>
      (t.drop j).take (consumed + 1)))

/-! ## Flow analysis and strategy decision (`generate_junit_tests`) -/

/-- Python-dict insertion for string keys: existing keys keep their
position and take the new value, new keys are appended. -/
def dictInsertB (acc : List (List Char × List Char)) (k v : List Char) :
    List (List Char × List Char) :=
  if acc.any (fun e => e.1 = k) then
    acc.map (fun e => if e.1 = k then (k, v) else e)
  else acc ++ [(k, v)]

/-- The `method_flows` dict of `_analyze_code_flow` (lines 1292-1317):
for each match of the flow pattern with `public` visibility whose body is
recoverable from the match end, keyed by method name (a later match with
the same name overwrites).  The parallel dicts (`conditional_branches`,
`exception_paths`, ...) are keyed and filled by the same loop, so their
values are the derived data of these same bodies. -/
def methodFlowsDict (code : List Char) : List (List Char × List Char) :=
  (reFindAll reFlowMethod code).foldl (fun acc m =>
    if getCapD 1 m.2.2 = "public".data then
      match extractMethodBody code (m.1 + m.2.1) with
      | some body => dictInsertB acc (getCapD 3 m.2.2) body
      | none => acc
    else acc) []

/-- `total_methods_analyzed` (line 694). -/
def totalMethodsAnalyzed (code : List Char) : Nat :=
  (methodFlowsDict code).length

/-- `if_statements` count of `_find_conditional_branches` (line 1409). -/
def countIfStatements (body : List Char) : Nat :=
  (reFindAll reIfStmt body).length

/-- `thrown_exceptions` count of `_find_exception_paths` (line 1443). -/
def countThrownExceptions (body : List Char) : Nat :=
  (reFindAll reThrowStmt body).length

/-- `total_branches` (line 695): sum of `if_statements` counts over the
analyzed method bodies. -/
def totalBranches (code : List Char) : Nat :=
  ((methodFlowsDict code).map (fun e => countIfStatements e.2)).sum

/-- `total_exceptions` (line 696): sum of `thrown_exceptions` counts. -/
def totalExceptions (code : List Char) : Nat :=
  ((methodFlowsDict code).map (fun e => countThrownExceptions e.2)).sum

/-- `has_async_operations` of `_analyze_class_characteristics`
(lines 1149-1161): any async pattern matches somewhere in the code. -/
def hasAsyncOperations (code : List Char) : Bool :=
  reAsyncPats.any (fun re => (reSearch re code).isSome)

/-- `line_count` (line 674): `len(java_code.split('\n'))`. -/
def lineCount (code : List Char) : Nat :=
  countChar '\n' code + 1

/-- Generation strategy selected by the orchestrator. -/
inductive Strategy where
  | singleShot
  | chunked
  deriving DecidableEq, Repr

/-- Strategy decision of `generate_junit_tests` (lines 707-722): the
complexity pre-check (line 709) selects chunked generation whenever at
least one public method body was analyzed and the flow analysis found
more than 5 conditional branches, more than 2 thrown exceptions, or any
async marker; otherwise a class under 150 lines with fewer than 5
extracted methods goes single-shot (line 717), and everything else is
chunked (line 722). -/
def decideStrategy (code : List Char) : Strategy :=
  if 0 < totalMethodsAnalyzed code ∧
      (5 < totalBranches code ∨ 2 < totalExceptions code ∨
        hasAsyncOperations code = true) then
    Strategy.chunked
  else if lineCount code < 150 ∧ (extractMethodsWithDetails code).length < 5 then
    Strategy.singleShot
  else Strategy.chunked

/-! ## Chunking (`_generate_tests_chunked`) -/

/-- The chunking of line 630:
`[methods[i:i + 4] for i in range(0, len(methods), 4)]`. -/
def methodChunks {α : Type} : List α → List (List α)
  | [] => []
  | [a] => [[a]]
  | [a, b] => [[a, b]]
  | [a, b, c] => [[a, b, c]]
  | a :: b :: c :: d :: rest => [a, b, c, d] :: methodChunks rest

/-! ## Helper lemmas: chunking -/

theorem methodChunks_join {α : Type} : ∀ ms : List α, (methodChunks ms).join = ms
  | [] => by simp [methodChunks]
  | [a] => by simp [methodChunks]
  | [a, b] => by simp [methodChunks]
  | [a, b, c] => by simp [methodChunks]
  | a :: b :: c :: d :: rest => by
    simp [methodChunks, methodChunks_join rest]

theorem methodChunks_mem {α : Type} :
    ∀ (ms : List α) (c : List α), c ∈ methodChunks ms → c.length ≤ 4 ∧ c ≠ []
  | [], c, h => by simp [methodChunks] at h
  | [a], c, h => by
    simp [methodChunks] at h; subst h; simp
  | [a, b], c, h => by
    simp [methodChunks] at h; subst h; simp
  | [a, b, c'], c, h => by
    simp [methodChunks] at h; subst h; simp
  | a :: b :: c' :: d :: rest, c, h => by
    simp only [methodChunks, List.mem_cons] at h
    rcases h with h | h
    · subst h; simp
    · exact methodChunks_mem rest c h

theorem methodChunks_full {α : Type} :
    ∀ (ms : List α) (i : Nat) (c : List α),
      (methodChunks ms).get? i = some c →
      i + 1 < (methodChunks ms).length → c.length = 4
  | [], i, c, h, hi => by simp [methodChunks] at h
  | [a], i, c, h, hi => by simp [methodChunks] at hi
  | [a, b], i, c, h, hi => by simp [methodChunks] at hi
  | [a, b, c'], i, c, h, hi => by simp [methodChunks] at hi
  | a :: b :: c' :: d :: rest, i, c, h, hi => by
    match i with
    | 0 =>
      simp only [methodChunks, List.get?] at h
      cases h; rfl
    | Nat.succ k =>
      simp only [methodChunks, List.get?] at h
      simp only [methodChunks, List.length_cons] at hi
      exact methodChunks_full rest k c h (by omega)

/-- C1: for every extracted method list, the chunking of
`_generate_tests_chunked` (line 630) partitions it exactly: the
concatenation of the chunks is the original list (hence the multiset of
method names is preserved exactly once each, in source order), every
chunk is nonempty with at most 4 entries, and every chunk other than the
last has exactly 4 entries. -/
theorem chunking_partitions_methods {α : Type} (ms : List α) :
    (methodChunks ms).join = ms ∧
    (∀ c ∈ methodChunks ms, c.length ≤ 4 ∧ c ≠ []) ∧
    (∀ (i : Nat) (c : List α), (methodChunks ms).get? i = some c →
      i + 1 < (methodChunks ms).length → c.length = 4) :=
  ⟨methodChunks_join ms, fun c hc => methodChunks_mem ms c hc,
    fun i c h hi => methodChunks_full ms i c h hi⟩

/-! ## Helper lemmas: parameter parsing -/

theorem splitOnComma_ne_nil : ∀ l : List Char, splitOnComma l ≠ []
  | [] => by simp [splitOnComma]
  | c :: rest => by
    by_cases hc : c = ','
    · simp [splitOnComma, hc]
    · simp only [splitOnComma, hc, if_false]
      cases h : splitOnComma rest <;> simp

theorem splitOnComma_length :
    ∀ l : List Char, (splitOnComma l).length = countChar ',' l + 1
  | [] => by simp [splitOnComma, countChar]
  | c :: rest => by
    by_cases hc : c = ','
    · simp [splitOnComma, hc, countChar, splitOnComma_length rest]
      omega
    · simp only [splitOnComma, hc, if_false, countChar, if_neg hc]
      have hne := splitOnComma_ne_nil rest
      have hlen := splitOnComma_length rest
      cases h : splitOnComma rest with
      | nil => exact absurd h hne
      | cons p ps =>
        rw [h] at hlen
        simpa using hlen

theorem rfindSpace_isSome_of_mem :
    ∀ l : List Char, ' ' ∈ l → (rfindSpace l).isSome
  | c :: rest, h => by
    simp only [rfindSpace]
    cases hr : rfindSpace rest with
    | some i => simp
    | none =>
      rcases List.mem_cons.mp h with h1 | h2
      · simp [h1.symm]
      · have := rfindSpace_isSome_of_mem rest h2
        rw [hr] at this
        simp at this

theorem length_filterMap_all_some {α β : Type} (f : α → Option β) :
    ∀ l : List α, (∀ x ∈ l, (f x).isSome) → (l.filterMap f).length = l.length
  | [], _ => rfl
  | x :: xs, h => by
    have hx := h x (by simp)
    cases hfx : f x with
    | none => rw [hfx] at hx; simp at hx
    | some b =>
      rw [List.filterMap_cons, hfx]
      simp only [List.length_cons]
      rw [length_filterMap_all_some f xs (fun y hy => h y (by simp [hy]))]

/-- C9: for every well-formed method-parameter string (nonempty after
stripping, each comma-separated piece containing a type/name space after
stripping — the shape every parameter list without generic-comma
ambiguity has), the parsing of `_extract_methods_with_details` produces
exactly one pair per piece, i.e. the number of commas plus one; and the
empty string produces zero pairs. -/
theorem param_parsing_counts (g : List Char)
    (h1 : pyStrip g ≠ [])
    (h2 : ∀ p ∈ splitOnComma (pyStrip g), ' ' ∈ pyStrip p) :
    (parseParamsGroup g).length = countChar ',' (pyStrip g) + 1 ∧
    parseParamsGroup [] = [] := by
  constructor
  · unfold parseParamsGroup
    rw [if_neg h1]
    rw [length_filterMap_all_some _ _ (fun p hp => ?_), splitOnComma_length]
    have hs := rfindSpace_isSome_of_mem (pyStrip p) (h2 p hp)
    cases hr : rfindSpace (pyStrip p) with
    | some i => simp [hr]
    | none => rw [hr] at hs; simp at hs
  · rfl

/-- Witness for C9 at a concrete two-parameter string. -/
theorem param_parsing_counts_witness :
    pyStrip ("int a, java.util.List xs".data) ≠ [] ∧
    (parseParamsGroup ("int a, java.util.List xs".data)).length =
      countChar ',' (pyStrip ("int a, java.util.List xs".data)) + 1 :=
  ⟨by decide, (param_parsing_counts ("int a, java.util.List xs".data)
      (by decide) (by decide)).1⟩

/-! ## Helper lemmas: leftmost search -/

theorem reSearchPos_spec (re : RE) :
    ∀ (s : List Char) (pos i n : Nat) (caps : Caps),
      reSearchPos re s pos = some (i, n, caps) →
      pos ≤ i ∧ reMatch re (s.drop (i - pos)) = some (n, caps) ∧
        ∀ j, pos ≤ j → j < i → reMatch re (s.drop (j - pos)) = none
  | [], pos, i, n, caps, h => by
    rw [reSearchPos] at h
    cases hm : reMatch re [] with
    | some r =>
      obtain ⟨n', caps'⟩ := r
      rw [hm] at h
      cases h
      refine ⟨Nat.le_refl _, ?_,
        fun j h1 h2 => absurd (Nat.lt_of_le_of_lt h1 h2) (Nat.lt_irrefl _)⟩
      simpa using hm
    | none => rw [hm] at h; cases h
  | c :: xs, pos, i, n, caps, h => by
    rw [reSearchPos] at h
    cases hm : reMatch re (c :: xs) with
    | some r =>
      obtain ⟨n', caps'⟩ := r
      rw [hm] at h
      cases h
      refine ⟨Nat.le_refl _, ?_,
        fun j h1 h2 => absurd (Nat.lt_of_le_of_lt h1 h2) (Nat.lt_irrefl _)⟩
      simpa using hm
    | none =>
      rw [hm] at h
      have ih := reSearchPos_spec re xs (pos + 1) i n caps h
      refine ⟨Nat.le_of_succ_le ih.1, ?_, ?_⟩
      · have h1 : (c :: xs).drop (i - pos) = xs.drop (i - (pos + 1)) := by
          have h2 : i - pos = (i - (pos + 1)) + 1 := by omega
          rw [h2, List.drop_succ_cons]
        rw [h1]; exact ih.2.1
      · intro j hj1 hj2
        rcases Nat.eq_or_lt_of_le hj1 with rfl | hlt
        · simpa using hm
        · have h1 : (c :: xs).drop (j - pos) = xs.drop (j - (pos + 1)) := by
            have h2 : j - pos = (j - (pos + 1)) + 1 := by omega
            rw [h2, List.drop_succ_cons]
          rw [h1]
          exact ih.2.2 j hlt hj2

theorem reSearchPos_none_of_all (re : RE) :
    ∀ (s : List Char) (pos : Nat),
      (∀ j, reMatch re (s.drop j) = none) → reSearchPos re s pos = none
  | [], pos, h => by
    rw [reSearchPos]
    have h0 := h 0
    simp only [List.drop_zero] at h0
    rw [h0]
  | c :: xs, pos, h => by
    rw [reSearchPos]
    have h0 := h 0
    simp only [List.drop_zero] at h0
    rw [h0]
    exact reSearchPos_none_of_all re xs (pos + 1) (fun j => by simpa using h (j + 1))

/-- The class-declaration pattern matched at start position `i`, with its
captured identifier. -/
def classNameAt (code : List Char) (i : Nat) : Option (List Char) :=
  match reMatch reClassName (code.drop i) with
  | some (_, caps) => some (getCapD 1 caps)
  | none => none

/-- C2: `_extract_class_name` returns `None` when the public
type-declaration pattern matches nowhere, and otherwise the identifier
captured at the first (leftmost) position where the pattern matches; and
`_extract_methods_with_details` never returns a method whose name equals
that identifier (constructor exclusion). -/
theorem class_name_first_occurrence_and_ctor_exclusion (code : List Char) :
    ((∀ j, classNameAt code j = none) → extractClassName code = none) ∧
    ∀ nm, extractClassName code = some nm →
      ((∃ i, classNameAt code i = some nm ∧ ∀ j < i, classNameAt code j = none) ∧
       ∀ m ∈ extractMethodsWithDetails code, m.name ≠ nm) := by
  constructor
  · intro hall
    have hm : ∀ j, reMatch reClassName (code.drop j) = none := by
      intro j
      have := hall j
      rw [classNameAt] at this
      cases hmm : reMatch reClassName (code.drop j) with
      | some r => rw [hmm] at this; cases this
      | none => rfl
    rw [extractClassName, reSearch, reSearchPos_none_of_all reClassName code 0 hm]
  · intro nm hnm
    constructor
    · rw [extractClassName, reSearch] at hnm
      cases hs : reSearchPos reClassName code 0 with
      | none => rw [hs] at hnm; cases hnm
      | some r =>
        obtain ⟨i, n, caps⟩ := r
        rw [hs] at hnm
        cases hnm
        have hspec := reSearchPos_spec reClassName code 0 i n caps hs
        refine ⟨i, ?_, ?_⟩
        · rw [classNameAt]
          have h2 := hspec.2.1
          simp only [Nat.sub_zero] at h2
          rw [h2]
        · intro j hj
          rw [classNameAt]
          have h3 := hspec.2.2 j (Nat.zero_le _) hj
          simp only [Nat.sub_zero] at h3
          rw [h3]
    · intro m hm
      simp only [extractMethodsWithDetails, List.mem_filterMap] at hm
      obtain ⟨a, _, hfa⟩ := hm
      by_cases hcase : extractClassName code = some (pyStrip (getCapD 2 a.2.2))
      · rw [if_pos hcase] at hfa
        cases hfa
      · rw [if_neg hcase] at hfa
        cases hfa
        intro heq
        simp only [MethodFact.mk.injEq] at heq
        rw [heq] at hcase
        exact hcase hnm

/-- Concrete source text used for witnesses of the extraction claims. -/
def demoCalc : List Char :=
  ("public class Calculator \x7b public int add(int a, int b) \x7b return a + b; \x7d \x7d").data

/-- Witness for C2 on a concrete single-class source text. -/
theorem class_name_first_occurrence_and_ctor_exclusion_witness :
    (∃ i, classNameAt demoCalc i = some ("Calculator".data) ∧
      ∀ j < i, classNameAt demoCalc j = none) ∧
    ∀ m ∈ extractMethodsWithDetails demoCalc, m.name ≠ ("Calculator".data) :=
  (class_name_first_occurrence_and_ctor_exclusion demoCalc).2
    ("Calculator".data) (by decide)

/-! ## Helper lemmas: dependency deduplication -/

theorem dictInsert_names_of_mem (acc : List Dep) (d : Dep)
    (h : d.name ∈ acc.map Dep.name) :
    (dictInsert acc d).map Dep.name = acc.map Dep.name := by
  have hany : acc.any (fun e => e.name = d.name) = true := by
    simp only [List.any_eq_true, decide_eq_true_eq]
    rcases List.mem_map.mp h with ⟨e, he, hne⟩
    exact ⟨e, he, hne⟩
  rw [dictInsert, if_pos hany, List.map_map]
  refine List.map_congr_left (fun e _ => ?_)
  by_cases hc : e.name = d.name
  · simp [hc]
  · simp [hc]

theorem dictInsert_names_of_not_mem (acc : List Dep) (d : Dep)
    (h : d.name ∉ acc.map Dep.name) :
    (dictInsert acc d).map Dep.name = acc.map Dep.name ++ [d.name] := by
  have hany : acc.any (fun e => e.name = d.name) = false := by
    simp only [List.any_eq_false, decide_eq_true_eq]
    intro e he hne
    exact h (List.mem_map.mpr ⟨e, he, hne⟩)
  rw [dictInsert, if_neg (by simp [hany]), List.map_append]
  rfl

theorem dictInsert_names_mono (acc : List Dep) (d : Dep) (nm : List Char)
    (h : nm ∈ acc.map Dep.name) : nm ∈ (dictInsert acc d).map Dep.name := by
  by_cases hd : d.name ∈ acc.map Dep.name
  · rw [dictInsert_names_of_mem acc d hd]; exact h
  · rw [dictInsert_names_of_not_mem acc d hd]; exact List.mem_append_left _ h

theorem dictInsert_names_self (acc : List Dep) (d : Dep) :
    d.name ∈ (dictInsert acc d).map Dep.name := by
  by_cases hd : d.name ∈ acc.map Dep.name
  · rw [dictInsert_names_of_mem acc d hd]; exact hd
  · rw [dictInsert_names_of_not_mem acc d hd]; simp

theorem dedupFold_nodup :
    ∀ (l acc : List Dep), (acc.map Dep.name).Nodup →
      ((l.foldl dictInsert acc).map Dep.name).Nodup
  | [], acc, h => h
  | d :: rest, acc, h => by
    rw [List.foldl_cons]
    refine dedupFold_nodup rest (dictInsert acc d) ?_
    by_cases hd : d.name ∈ acc.map Dep.name
    · rw [dictInsert_names_of_mem acc d hd]; exact h
    · rw [dictInsert_names_of_not_mem acc d hd]
      rw [List.nodup_append]
      exact ⟨h, List.nodup_singleton _, by
        intro a ha hb
        rw [List.mem_singleton] at hb
        exact hd (hb ▸ ha)⟩

theorem dedupFold_subset :
    ∀ (l acc : List Dep) (x : Dep), x ∈ l.foldl dictInsert acc → x ∈ acc ∨ x ∈ l
  | [], acc, x, h => Or.inl h
  | d :: rest, acc, x, h => by
    rw [List.foldl_cons] at h
    rcases dedupFold_subset rest (dictInsert acc d) x h with h1 | h1
    · rw [dictInsert] at h1
      by_cases hc : acc.any (fun e => e.name = d.name) = true
      · rw [if_pos hc] at h1
        rcases List.mem_map.mp h1 with ⟨e, he, hxe⟩
        by_cases hen : e.name = d.name
        · right; rw [if_pos hen] at hxe; exact hxe ▸ List.mem_cons_self d rest
        · left; rw [if_neg hen] at hxe; exact hxe ▸ he
      · rw [if_neg hc] at h1
        rcases List.mem_append.mp h1 with h2 | h2
        · exact Or.inl h2
        · right; rw [List.mem_singleton] at h2; exact h2 ▸ List.mem_cons_self d rest
    · exact Or.inr (List.mem_cons_of_mem d h1)

theorem dedupFold_names_mono :
    ∀ (l acc : List Dep) (nm : List Char), nm ∈ acc.map Dep.name →
      nm ∈ (l.foldl dictInsert acc).map Dep.name
  | [], _, _, h => h
  | d :: rest, acc, nm, h => by
    rw [List.foldl_cons]
    exact dedupFold_names_mono rest _ nm (dictInsert_names_mono acc d nm h)

theorem dedupFold_names_of_mem :
    ∀ (l acc : List Dep) (nm : List Char), nm ∈ l.map Dep.name →
      nm ∈ (l.foldl dictInsert acc).map Dep.name
  | d :: rest, acc, nm, h => by
    rw [List.foldl_cons]
    rcases List.mem_map.mp h with ⟨e, he, hne⟩
    rcases List.mem_cons.mp he with rfl | he2
    · exact dedupFold_names_mono rest _ nm (hne ▸ dictInsert_names_self acc e)
    · exact dedupFold_names_of_mem rest _ nm (List.mem_map.mpr ⟨e, he2, hne⟩)

theorem filter_name_nil :
    ∀ (r : List Dep) (nm : List Char), nm ∉ r.map Dep.name →
      r.filter (fun e => e.name = nm) = []
  | [], _, _ => rfl
  | e :: rest, nm, h => by
    have he : ¬(e.name = nm) := fun hc => h (List.mem_map.mpr ⟨e, List.mem_cons_self _ _, hc⟩)
    rw [List.filter_cons, if_neg (by simp [he])]
    exact filter_name_nil rest nm (fun hc => h (by
      rcases List.mem_map.mp hc with ⟨x, hx, hxn⟩
      exact List.mem_map.mpr ⟨x, List.mem_cons_of_mem e hx, hxn⟩))

theorem filter_name_singleton :
    ∀ (r : List Dep) (nm : List Char), (r.map Dep.name).Nodup →
      nm ∈ r.map Dep.name →
      ∃ d, r.filter (fun e => e.name = nm) = [d] ∧ d ∈ r ∧ d.name = nm
  | e :: rest, nm, hnd, hmem => by
    rw [List.map_cons, List.nodup_cons] at hnd
    by_cases hc : e.name = nm
    · refine ⟨e, ?_, List.mem_cons_self _ _, hc⟩
      rw [List.filter_cons, if_pos (by simp [hc]),
        filter_name_nil rest nm (hc ▸ hnd.1)]
    · have hmem2 : nm ∈ rest.map Dep.name := by
        rcases List.mem_map.mp hmem with ⟨x, hx, hxn⟩
        rcases List.mem_cons.mp hx with rfl | hx2
        · exact absurd hxn hc
        · exact List.mem_map.mpr ⟨x, hx2, hxn⟩
      rcases filter_name_singleton rest nm hnd.2 hmem2 with ⟨d, hf, hd, hdn⟩
      exact ⟨d, by rw [List.filter_cons, if_neg (by simp [hc]), hf],
        List.mem_cons_of_mem e hd, hdn⟩

theorem mergeFold_names_mono :
    ∀ (ctor acc : List Dep) (nm : List Char), nm ∈ acc.map Dep.name →
      nm ∈ (ctor.foldl mergeIns acc).map Dep.name
  | [], _, _, h => h
  | d :: rest, acc, nm, h => by
    rw [List.foldl_cons]
    refine mergeFold_names_mono rest _ nm ?_
    rw [mergeIns]
    by_cases hc : acc.any (fun e => e.name = d.name) = true
    · rw [if_pos hc]; exact h
    · rw [if_neg hc, List.map_append]; exact List.mem_append_left _ h

theorem mergeFold_new_names :
    ∀ (ctor acc : List Dep) (x : Dep), x ∈ ctor.foldl mergeIns acc →
      x ∈ acc ∨ x.name ∉ acc.map Dep.name
  | [], _, _, h => Or.inl h
  | d :: rest, acc, x, h => by
    rw [List.foldl_cons] at h
    rcases mergeFold_new_names rest (mergeIns acc d) x h with h1 | h1
    · rw [mergeIns] at h1
      by_cases hc : acc.any (fun e => e.name = d.name) = true
      · rw [if_pos hc] at h1; exact Or.inl h1
      · rw [if_neg hc] at h1
        rcases List.mem_append.mp h1 with h2 | h2
        · exact Or.inl h2
        · rw [List.mem_singleton] at h2
          subst h2
          right
          intro hmem
          rcases List.mem_map.mp hmem with ⟨e, he, hne⟩
          rw [List.any_eq_true] at hc
          exact hc ⟨e, he, by simp [hne]⟩
    · right
      intro hmem
      refine h1 ?_
      rw [mergeIns]
      by_cases hc : acc.any (fun e => e.name = d.name) = true
      · rw [if_pos hc]; exact hmem
      · rw [if_neg hc, List.map_append]; exact List.mem_append_left _ hmem

/-- C8: the dependency list returned by `_extract_dependencies` never
contains two entries with the same name; and whenever a name appears both
among the field-injected facts and among the constructor parameters, the
returned list contains exactly one entry with that name and that entry is
one of the field-injected facts. -/
theorem dependency_dedup_field_precedence (code : List Char) (nm : List Char) :
    ((extractDependencies code).map Dep.name).Nodup ∧
    (nm ∈ (extractFieldDeps code).map Dep.name →
     nm ∈ (extractCtorParams code).map Dep.name →
     ∃ d, (extractDependencies code).filter (fun e => e.name = nm) = [d] ∧
       d ∈ extractFieldDeps code ∧ d.name = nm) := by
  constructor
  · rw [extractDependencies, dedupByName]
    exact dedupFold_nodup _ [] (by simp)
  · intro h1 _
    have hmerged : nm ∈ ((extractCtorParams code).foldl mergeIns
        (extractFieldDeps code)).map Dep.name :=
      mergeFold_names_mono _ _ nm h1
    have hres : nm ∈ (extractDependencies code).map Dep.name := by
      rw [extractDependencies, dedupByName]
      exact dedupFold_names_of_mem _ [] nm hmerged
    have hnodup : ((extractDependencies code).map Dep.name).Nodup := by
      rw [extractDependencies, dedupByName]
      exact dedupFold_nodup _ [] (by simp)
    rcases filter_name_singleton _ nm hnodup hres with ⟨d, hf, hd, hdn⟩
    refine ⟨d, hf, ?_, hdn⟩
    rw [extractDependencies, dedupByName] at hd
    rcases dedupFold_subset _ [] d hd with h2 | h2
    · cases h2
    · rcases mergeFold_new_names _ _ d h2 with h3 | h3
      · exact h3
      · exact absurd (hdn ▸ h1) h3

/-- Concrete source text with a field-injected and a constructor
dependency sharing the name `repo`. -/
def depsDemo : List Char :=
  ("public class A \x7b @Autowired private Svc repo; public A(Svc repo, Dao dao) \x7b \x7d \x7d").data

/-- Witness for C8 at a concrete name collision. -/
theorem dependency_dedup_field_precedence_witness :
    ("repo".data ∈ (extractFieldDeps depsDemo).map Dep.name) ∧
    ("repo".data ∈ (extractCtorParams depsDemo).map Dep.name) ∧
    ∃ d, (extractDependencies depsDemo).filter (fun e => e.name = "repo".data) = [d] ∧
      d ∈ extractFieldDeps depsDemo ∧ d.name = "repo".data :=
  ⟨by decide, by decide,
    (dependency_dedup_field_precedence depsDemo ("repo".data)).2 (by decide) (by decide)⟩

/-! ## Helper lemmas: brace balancing -/

/-- Scanner state of the brace-balancing loop: brace count, whether
inside a double-quoted string, whether the previous character was an
unconsumed backslash. -/
structure BState where
  depth : Nat
  inStr : Bool
  esc : Bool
  deriving DecidableEq, Repr

/-- One character transition of the balancing loop, as an independent
specification-side fold (with truncated subtraction at a close brace). -/
def stepB (st : BState) (ch : Char) : BState :=
  if st.esc then ⟨st.depth, st.inStr, false⟩
  else if ch = bslash then ⟨st.depth, st.inStr, true⟩
  else if ch = dquote then ⟨st.depth, !st.inStr, false⟩
  else if st.inStr then ⟨st.depth, st.inStr, false⟩
  else if ch = lbrace then ⟨st.depth + 1, st.inStr, false⟩
  else if ch = rbrace then ⟨st.depth - 1, st.inStr, false⟩
  else ⟨st.depth, st.inStr, false⟩

/-- State after consuming the first `n` characters of `t`. -/
def stateUpTo (t : List Char) (st : BState) (n : Nat) : BState :=
  (t.take n).foldl stepB st

theorem stateUpTo_zero (t : List Char) (st : BState) : stateUpTo t st 0 = st := rfl

theorem stateUpTo_cons (ch : Char) (rest : List Char) (st : BState) (n : Nat) :
    stateUpTo (ch :: rest) st (n + 1) = stateUpTo rest (stepB st ch) n := by
  simp [stateUpTo, List.take_succ_cons]

theorem stateUpTo_succ_right (t : List Char) (st : BState) (m : Nat) (ch : Char)
    (h : t.get? m = some ch) :
    stateUpTo t st (m + 1) = stepB (stateUpTo t st m) ch := by
  have h2 : t[m]? = some ch := by rw [← List.get?_eq_getElem?]; exact h
  rw [stateUpTo, stateUpTo, List.take_succ, h2]
  simp

theorem stepB_zero_of_pos (st : BState) (ch : Char)
    (h0 : (stepB st ch).depth = 0) (hpos : st.depth ≠ 0) : ch = rbrace := by
  rw [stepB] at h0
  split_ifs at h0 with h1 h2 h3 h4 h5 h6 <;> simp_all

theorem scanLoop_cons (ch : Char) (rest : List Char) (d : Nat) (i e : Bool)
    (acc : Nat) :
    scanLoop (ch :: rest) (d + 1) i e acc =
      scanLoop rest (stepB ⟨d + 1, i, e⟩ ch).depth (stepB ⟨d + 1, i, e⟩ ch).inStr
        (stepB ⟨d + 1, i, e⟩ ch).esc (acc + 1) := by
  rw [scanLoop, stepB]
  split_ifs <;> rfl

theorem scanLoop_sound :
    ∀ (t : List Char) (d : Nat) (i e : Bool) (acc r : Nat),
      scanLoop t d i e acc = some r →
      ∃ n, r = acc + n ∧ n ≤ t.length ∧
        (stateUpTo t ⟨d, i, e⟩ n).depth = 0 ∧
        ∀ m < n, (stateUpTo t ⟨d, i, e⟩ m).depth ≠ 0
  | t, 0, i, e, acc, r, h => by
    rw [scanLoop] at h
    cases h
    exact ⟨0, by omega, Nat.zero_le _, by simp [stateUpTo_zero], by omega⟩
  | [], d + 1, i, e, acc, r, h => by rw [scanLoop] at h; cases h
  | ch :: rest, d + 1, i, e, acc, r, h => by
    rw [scanLoop_cons] at h
    obtain ⟨n, hr, hlen, hzero, hleast⟩ := scanLoop_sound rest _ _ _ (acc + 1) r h
    refine ⟨n + 1, by omega, by simpa using Nat.succ_le_succ hlen, ?_, ?_⟩
    · rw [stateUpTo_cons]; exact hzero
    · intro m hm
      cases m with
      | zero => rw [stateUpTo_zero]; simp
      | succ m' => rw [stateUpTo_cons]; exact hleast m' (by omega)

theorem scanLoop_none :
    ∀ (t : List Char) (d : Nat) (i e : Bool) (acc : Nat),
      scanLoop t d i e acc = none →
      ∀ n, n ≤ t.length → (stateUpTo t ⟨d, i, e⟩ n).depth ≠ 0
  | t, 0, i, e, acc, h => by rw [scanLoop] at h; cases h
  | [], d + 1, i, e, acc, _ => by
    intro n hn
    have hn0 : n = 0 := by simpa using hn
    subst hn0
    rw [stateUpTo_zero]
    simp
  | ch :: rest, d + 1, i, e, acc, h => by
    rw [scanLoop_cons] at h
    intro n hn
    cases n with
    | zero => rw [stateUpTo_zero]; simp
    | succ m =>
      rw [stateUpTo_cons]
      exact scanLoop_none rest _ _ _ (acc + 1) h m (by simpa using hn)

theorem firstBraceIdx_none_iff : ∀ t : List Char, firstBraceIdx t = none ↔ lbrace ∉ t
  | [] => by simp [firstBraceIdx]
  | c :: rest => by
    rw [firstBraceIdx]
    by_cases hc : c = lbrace
    · simp [hc]
    · simp only [if_neg hc, List.mem_cons]
      cases h : firstBraceIdx rest with
      | some j =>
        have hmem : lbrace ∈ rest := by
          by_contra hnm
          rw [(firstBraceIdx_none_iff rest).mpr hnm] at h
          cases h
        simp [h, hmem]
      | none =>
        simp only [Option.map_none', true_iff]
        push_neg
        exact ⟨fun hcc => hc hcc.symm, (firstBraceIdx_none_iff rest).mp h⟩

theorem firstBraceIdx_some_spec :
    ∀ (t : List Char) (j : Nat), firstBraceIdx t = some j →
      t.get? j = some lbrace ∧ ∀ i < j, t.get? i ≠ some lbrace
  | [], j, h => by rw [firstBraceIdx] at h; cases h
  | c :: rest, j, h => by
    rw [firstBraceIdx] at h
    by_cases hc : c = lbrace
    · rw [if_pos hc] at h
      cases h
      exact ⟨by simp [hc], by omega⟩
    · rw [if_neg hc] at h
      cases hr : firstBraceIdx rest with
      | none => rw [hr] at h; cases h
      | some j' =>
        rw [hr] at h
        simp only [Option.map_some'] at h
        cases h
        have ih := firstBraceIdx_some_spec rest j' hr
        refine ⟨by simpa using ih.1, ?_⟩
        intro i hi
        cases i with
        | zero =>
          intro hcc
          simp only [List.get?_cons_zero, Option.some.injEq] at hcc
          exact hc hcc
        | succ i' =>
          simpa using ih.2 i' (by omega)

/-- C10: `_extract_method_body` is total and satisfies its postcondition.
It returns `none` exactly when no opening brace occurs at or after the
start position or the brace count (evaluated by the string-literal and
escape-aware transition `stepB`, starting at count 1 after the first
opening brace) never returns to zero before the end of the input; and
when it returns a substring, that substring begins at the first opening
brace at or after the start position and extends exactly to the first
position where the count returns to zero, which is a closing brace. -/
theorem method_body_extraction_spec (s : List Char) (p : Nat) :
    (extractMethodBody s p = none →
      (lbrace ∉ s.drop p ∨
       ∃ j, (s.drop p).get? j = some lbrace ∧
         (∀ i < j, (s.drop p).get? i ≠ some lbrace) ∧
         ∀ n ≤ ((s.drop p).drop (j + 1)).length,
           (stateUpTo ((s.drop p).drop (j + 1)) ⟨1, false, false⟩ n).depth ≠ 0)) ∧
    (∀ r, extractMethodBody s p = some r →
      ∃ j n, (s.drop p).get? j = some lbrace ∧
        (∀ i < j, (s.drop p).get? i ≠ some lbrace) ∧
        n ≤ ((s.drop p).drop (j + 1)).length ∧
        (stateUpTo ((s.drop p).drop (j + 1)) ⟨1, false, false⟩ n).depth = 0 ∧
        (∀ m < n, (stateUpTo ((s.drop p).drop (j + 1)) ⟨1, false, false⟩ m).depth ≠ 0) ∧
        r = ((s.drop p).drop j).take (n + 1) ∧
        r.length = n + 1 ∧ r.get? 0 = some lbrace ∧ r.get? n = some rbrace) := by
  constructor
  · intro hnone
    simp only [extractMethodBody] at hnone
    cases hfb : firstBraceIdx (s.drop p) with
    | none => exact Or.inl ((firstBraceIdx_none_iff _).mp hfb)
    | some j =>
      rw [hfb, Option.some_bind, Option.map_eq_none'] at hnone
      obtain ⟨hj, hfirst⟩ := firstBraceIdx_some_spec _ j hfb
      exact Or.inr ⟨j, hj, hfirst, fun n hn =>
        scanLoop_none _ 1 false false 0 hnone n hn⟩
  · intro r hr
    simp only [extractMethodBody] at hr
    cases hfb : firstBraceIdx (s.drop p) with
    | none => rw [hfb, Option.none_bind] at hr; cases hr
    | some j =>
      rw [hfb, Option.some_bind, Option.map_eq_some'] at hr
      obtain ⟨c, hsc, hrc⟩ := hr
      obtain ⟨hj, hfirst⟩ := firstBraceIdx_some_spec _ j hfb
      obtain ⟨n, hc0, hlen, hzero, hleast⟩ := scanLoop_sound _ 1 false false 0 c hsc
      subst hc0
      simp only [Nat.zero_add] at hrc
      have hjlt : j < (s.drop p).length := by
        by_contra hge
        rw [List.get?_eq_none.mpr (by omega)] at hj
        cases hj
      have hn1 : 1 ≤ n := by
        rcases Nat.eq_zero_or_pos n with rfl | hpos
        · rw [stateUpTo_zero] at hzero; simp at hzero
        · exact hpos
      refine ⟨j, n, hj, hfirst, hlen, hzero, hleast, hrc.symm, ?_, ?_, ?_⟩
      · rw [← hrc, List.length_take]
        simp only [List.length_drop]
        simp only [List.length_drop] at hlen
        omega
      · rw [← hrc, List.get?_take (by omega), List.get?_drop]
        simpa using hj
      · obtain ⟨m, rfl⟩ : ∃ m, n = m + 1 := ⟨n - 1, by omega⟩
        have hmlt : m < ((s.drop p).drop (j + 1)).length := by omega
        cases hch : ((s.drop p).drop (j + 1)).get? m with
        | none =>
          rw [List.get?_eq_none] at hch
          omega
        | some ch =>
          have hstep := stateUpTo_succ_right ((s.drop p).drop (j + 1))
            ⟨1, false, false⟩ m ch hch
          rw [hstep] at hzero
          have hchr : ch = rbrace :=
            stepB_zero_of_pos _ ch hzero (hleast m (by omega))
          rw [← hrc, List.get?_take (by omega), List.get?_drop]
          rw [List.get?_drop] at hch
          have harith : j + 1 + m = j + (m + 1) := by omega
          rw [harith] at hch
          rw [hch, hchr]

/-- Witness for C10 at a concrete source slice with a nested block. -/
theorem method_body_extraction_spec_witness :
    ∃ j n,
      (("x \x7b a \x7b b \x7d c \x7d y".data).drop 0).get? j = some lbrace ∧
      (∀ i < j, (("x \x7b a \x7b b \x7d c \x7d y".data).drop 0).get? i ≠ some lbrace) ∧
      n ≤ ((("x \x7b a \x7b b \x7d c \x7d y".data).drop 0).drop (j + 1)).length ∧
      (stateUpTo ((("x \x7b a \x7b b \x7d c \x7d y".data).drop 0).drop (j + 1))
        ⟨1, false, false⟩ n).depth = 0 ∧
      (∀ m < n, (stateUpTo ((("x \x7b a \x7b b \x7d c \x7d y".data).drop 0).drop (j + 1))
        ⟨1, false, false⟩ m).depth ≠ 0) ∧
      ("\x7b a \x7b b \x7d c \x7d".data) =
        ((("x \x7b a \x7b b \x7d c \x7d y".data).drop 0).drop j).take (n + 1) ∧
      ("\x7b a \x7b b \x7d c \x7d".data).length = n + 1 ∧
      ("\x7b a \x7b b \x7d c \x7d".data).get? 0 = some lbrace ∧
      ("\x7b a \x7b b \x7d c \x7d".data).get? n = some rbrace :=
  (method_body_extraction_spec ("x \x7b a \x7b b \x7d c \x7d y".data) 0).2
    ("\x7b a \x7b b \x7d c \x7d".data) (by decide)

/-! ## Helper lemmas: response cleaning -/

theorem startsWithChars_mono_false :
    ∀ (p q l : List Char), startsWithChars p l = false →
      startsWithChars (p ++ q) l = false
  | [], _, l, h => by rw [startsWithChars.eq_def] at h; cases l <;> simp_all
  | a :: p', q, [], _ => rfl
  | a :: p', q, x :: l', h => by
    rw [List.cons_append, startsWithChars]
    rw [startsWithChars] at h
    rcases Bool.and_eq_false_iff.mp h with h1 | h1
    · rw [h1]; rfl
    · rw [startsWithChars_mono_false p' q l' h1]
      simp

theorem subFJAux_id_of_no_fence :
    ∀ t : List Char, containsSub [btick, btick, btick] t = false →
      subFJAux 0 t = t
  | [], _ => rfl
  | c :: rest, h => by
    rw [containsSub] at h
    rcases Bool.or_eq_false_iff.mp h with ⟨h1, h2⟩
    have hcond : (c = btick && startsWithChars fenceJavaTail rest) = false := by
      by_cases hc : c = btick
      · subst hc
        simp only [startsWithChars, decide_True, Bool.true_and] at h1
        have h3 := startsWithChars_mono_false [btick, btick] ['j', 'a', 'v', 'a'] rest h1
        rw [show ([btick, btick] ++ (['j', 'a', 'v', 'a'] : List Char)) = fenceJavaTail from rfl] at h3
        simp [h3]
      · simp [hc]
    rw [subFJAux, hcond]
    simp only [Bool.false_eq_true, if_false]
    exact congrArg (c :: ·) (subFJAux_id_of_no_fence rest h2)

theorem subFAux_id_of_no_fence :
    ∀ t : List Char, containsSub [btick, btick, btick] t = false →
      subFAux 0 t = t
  | [], _ => rfl
  | c :: rest, h => by
    rw [containsSub] at h
    rcases Bool.or_eq_false_iff.mp h with ⟨h1, h2⟩
    have hcond : (c = btick && startsWithChars [btick, btick] rest) = false := by
      by_cases hc : c = btick
      · subst hc
        simp only [startsWithChars, decide_True, Bool.true_and] at h1
        simp [h1]
      · simp [hc]
    rw [subFAux, hcond]
    simp only [Bool.false_eq_true, if_false]
    exact congrArg (c :: ·) (subFAux_id_of_no_fence rest h2)

theorem reSearch_of_match_at_head (re : RE) (s : List Char) (n : Nat) (caps : Caps)
    (h : reMatch re s = some (n, caps)) : reSearch re s = some (0, n, caps) := by
  cases s with
  | nil => rw [reSearch, reSearchPos, h]
  | cons c xs => rw [reSearch, reSearchPos, h]

theorem errBanner_pos : 0 < errBanner.length := by decide

/-- C4 counterexample: cleaning is not idempotent — on a text with no
package declaration a second application prepends a second error
banner. -/
theorem clean_not_idempotent_cex :
    cleanGeneratedCode (cleanGeneratedCode ("hello".data) ("Foo".data)) ("Foo".data) ≠
      cleanGeneratedCode ("hello".data) ("Foo".data) := by decide

/-- C4 amended: cleaning is a fixed point only on already-clean text:
any text containing no triple-backtick fence marker, equal to its own
whitespace strip, and matching the package-declaration pattern at its
start is returned unchanged (hence cleaning is idempotent on such
texts); in general a second application differs, see the
counterexample. -/
theorem clean_fixed_point_on_clean_text (t c : List Char)
    (hfence : containsSub [btick, btick, btick] t = false)
    (hstrip : pyStrip t = t)
    (hmatch : (reMatch rePackageDecl t).isSome = true) :
    cleanGeneratedCode t c = t := by
  obtain ⟨⟨n, caps⟩, hm⟩ := Option.isSome_iff_exists.mp hmatch
  simp only [cleanGeneratedCode, subFenceJava, subFence, hstrip,
    subFJAux_id_of_no_fence t hfence, subFAux_id_of_no_fence t hfence,
    reSearch_of_match_at_head rePackageDecl t n caps hm, List.drop_zero]

/-- Witness for the amended C4 at a concrete already-clean text. -/
theorem clean_fixed_point_on_clean_text_witness :
    containsSub [btick, btick, btick] ("package a;\nclass ATest \x7b\x7d".data) = false ∧
    pyStrip ("package a;\nclass ATest \x7b\x7d".data) = ("package a;\nclass ATest \x7b\x7d".data) ∧
    cleanGeneratedCode ("package a;\nclass ATest \x7b\x7d".data) ("A".data) =
      ("package a;\nclass ATest \x7b\x7d".data) :=
  ⟨by decide, by decide,
    clean_fixed_point_on_clean_text ("package a;\nclass ATest \x7b\x7d".data) ("A".data)
      (by decide) (by decide) (by decide)⟩

/-- C3 counterexample: on a raw text with neither a package declaration
nor a fenced block, the returned text is not a placeholder unit naming
`expectedName` — it does not contain the expected name at all (though it
is non-empty). -/
theorem clean_fallback_cex :
    containsSub [btick, btick, btick] ("hello".data) = false ∧
    (reSearch rePackageDecl ("hello".data)).isSome = false ∧
    containsSub ("Foo".data) (cleanGeneratedCode ("hello".data) ("Foo".data)) = false ∧
    cleanGeneratedCode ("hello".data) ("Foo".data) ≠
      fallbackDemoClass ("Foo".data) none ∧
    cleanGeneratedCode ("hello".data) ("Foo".data) ≠ [] := by decide

/-- C3 amended: for raw text whose stripped, fence-stripped form has no
package declaration, `_clean_generated_code` returns that form prefixed
with a fixed error banner: the result is non-empty and deterministic,
but it is the annotated input text rather than a placeholder unit, and
it does not depend on `expectedName` at all. -/
theorem clean_no_package_error_banner (t c : List Char)
    (h : reSearch rePackageDecl (subFence (subFenceJava (pyStrip t))) = none) :
    cleanGeneratedCode t c = errBanner ++ subFence (subFenceJava (pyStrip t)) ∧
    cleanGeneratedCode t c ≠ [] ∧
    ∀ c', cleanGeneratedCode t c' = cleanGeneratedCode t c := by
  have hc : cleanGeneratedCode t c = errBanner ++ subFence (subFenceJava (pyStrip t)) := by
    simp only [cleanGeneratedCode, h]
  refine ⟨hc, ?_, fun c' => by simp only [cleanGeneratedCode]⟩
  rw [hc]
  intro hcontra
  have hlen := congrArg List.length hcontra
  rw [List.length_append, List.length_nil] at hlen
  have hpos := errBanner_pos
  omega

/-- Witness for the amended C3 at a concrete marker-free text. -/
theorem clean_no_package_error_banner_witness :
    reSearch rePackageDecl (subFence (subFenceJava (pyStrip ("hello".data)))) = none ∧
    cleanGeneratedCode ("hello".data) ("Foo".data) =
      errBanner ++ subFence (subFenceJava (pyStrip ("hello".data))) ∧
    cleanGeneratedCode ("hello".data) ("Foo".data) ≠ [] :=
  ⟨by decide,
    (clean_no_package_error_banner ("hello".data) ("Foo".data) (by decide)).1,
    (clean_no_package_error_banner ("hello".data) ("Foo".data) (by decide)).2.1⟩

/-- C7 counterexample: an empty `response` field is returned by the
gateway as a success (no `EmptyResponse` failure exists in the code),
and the cleaned result is not the fallback placeholder. -/
theorem empty_response_cex :
    gatewayResponseText (some []) = GenOutcome.ok [] ∧
    cleanGeneratedCode [] ("Calc".data) ≠ fallbackDemoClass ("Calc".data) none ∧
    cleanGeneratedCode [] ("Calc".data) ≠ [] := by decide

/-- C7 amended: the gateway passes an empty completion response through
as a successful empty text, and the cleaning step then returns exactly
the non-empty error banner — so the pipeline never emits the empty
string for an empty response, but the result is the error-annotated
text, not the fallback placeholder. -/
theorem empty_response_passthrough (c : List Char) :
    gatewayResponseText (some []) = GenOutcome.ok [] ∧
    cleanGeneratedCode [] c = errBanner ∧
    cleanGeneratedCode [] c ≠ [] := by
  have hclean : cleanGeneratedCode [] c = errBanner := by
    have h1 : reSearch rePackageDecl (subFence (subFenceJava (pyStrip []))) = none := by
      decide
    simp only [cleanGeneratedCode, h1]
    decide
  refine ⟨rfl, hclean, ?_⟩
  rw [hclean]
  decide

/-! ## Strategy decision (C6) -/

/-- Small single-method class carrying an async marker: the complexity
pre-check of `generate_junit_tests` fires (one public method body is
recovered — its first nested block — and `CompletableFuture` is an async
marker), so the chunked path is taken despite the small size. -/
def asyncDemo : List Char :=
  ("public class A \x7b public void m() \x7b if (p) \x7b q(); \x7d CompletableFuture.runAsync(r); \x7d \x7d").data

/-- Small single-method class with no recoverable nested body and no
async markers: the pre-check does not fire. -/
def syncDemo : List Char :=
  ("public class B \x7b public int f() \x7b return 1; \x7d \x7d").data

/-- C6 counterexample: a one-line source unit with a single extracted
method (well under the 150-line / 5-method thresholds) is nevertheless
routed to the chunked path, because the flow-complexity pre-check of
line 709 runs first and fires on its async marker. -/
theorem small_class_single_shot_cex :
    lineCount asyncDemo < 150 ∧
    (extractMethodsWithDetails asyncDemo).length < 5 ∧
    decideStrategy asyncDemo = Strategy.chunked := by decide

/-- C6 amended: a source unit below both thresholds selects the
single-shot path provided the flow-complexity pre-check does not fire
first, i.e. provided no public method body was recovered, or the flow
analysis finds at most 5 conditional branches, at most 2 thrown
exceptions and no async marker. -/
theorem small_class_single_shot (code : List Char)
    (hpre : totalMethodsAnalyzed code = 0 ∨
      (totalBranches code ≤ 5 ∧ totalExceptions code ≤ 2 ∧
        hasAsyncOperations code = false))
    (hline : lineCount code < 150)
    (hmeth : (extractMethodsWithDetails code).length < 5) :
    decideStrategy code = Strategy.singleShot := by
  rw [decideStrategy]
  rw [if_neg, if_pos ⟨hline, hmeth⟩]
  rintro ⟨hpos, hdisj⟩
  rcases hpre with h0 | ⟨hb, he, ha⟩
  · omega
  · rcases hdisj with h | h | h
    · omega
    · omega
    · rw [ha] at h; cases h

/-- Witness for the amended C6 at a concrete small synchronous class. -/
theorem small_class_single_shot_witness :
    lineCount syncDemo < 150 ∧
    (extractMethodsWithDetails syncDemo).length < 5 ∧
    decideStrategy syncDemo = Strategy.singleShot :=
  ⟨by decide, by decide,
    small_class_single_shot syncDemo (by decide) (by decide) (by decide)⟩

/-! ## Helper lemmas: fence-marker removal (C5) -/

theorem subFJAux_emit (c : Char) (rest : List Char)
    (h : (c = btick && startsWithChars fenceJavaTail rest) = false) :
    subFJAux 0 (c :: rest) = c :: subFJAux 0 rest := by
  rw [subFJAux, h]
  simp only [Bool.false_eq_true, if_false]

theorem subFAux_emit (c : Char) (rest : List Char)
    (h : (c = btick && startsWithChars [btick, btick] rest) = false) :
    subFAux 0 (c :: rest) = c :: subFAux 0 rest := by
  rw [subFAux, h]
  simp only [Bool.false_eq_true, if_false]

theorem subFJAux_pass (x : List Char) (hx : ∀ ch ∈ x, ch ≠ btick) :
    ∀ y : List Char, subFJAux 0 (x ++ y) = x ++ subFJAux 0 y := by
  induction x with
  | nil => intro y; simp
  | cons c x' ih =>
    intro y
    have hc : c ≠ btick := hx c (List.mem_cons_self _ _)
    rw [List.cons_append, subFJAux_emit c (x' ++ y) (by simp [hc]),
      ih (fun ch hch => hx ch (List.mem_cons_of_mem c hch)) y, List.cons_append]

theorem subFAux_pass (x : List Char) (hx : ∀ ch ∈ x, ch ≠ btick) :
    ∀ y : List Char, subFAux 0 (x ++ y) = x ++ subFAux 0 y := by
  induction x with
  | nil => intro y; simp
  | cons c x' ih =>
    intro y
    have hc : c ≠ btick := hx c (List.mem_cons_self _ _)
    rw [List.cons_append, subFAux_emit c (x' ++ y) (by simp [hc]),
      ih (fun ch hch => hx ch (List.mem_cons_of_mem c hch)) y, List.cons_append]

theorem subFJAux_fence_head (r : List Char) :
    subFJAux 0 (btick :: btick :: btick :: 'j' :: 'a' :: 'v' :: 'a' :: '\n' :: r) =
      subFJAux 0 r := rfl

theorem subFAux_fence_head (r : List Char) :
    subFAux 0 (btick :: btick :: btick :: r) = subFAux 0 r := rfl

theorem startsWithChars_fjt_two (m0 : Char) (rest : List Char) (h : m0 ≠ 'j') :
    startsWithChars fenceJavaTail (btick :: btick :: m0 :: rest) = false := by
  have hne : ¬('j' = m0) := fun hh => h hh.symm
  simp [fenceJavaTail, startsWithChars, hne]

theorem startsWithChars_fjt_one (m0 : Char) (rest : List Char) (h : m0 ≠ btick) :
    startsWithChars fenceJavaTail (btick :: m0 :: rest) = false := by
  have hne : ¬(btick = m0) := fun hh => h hh.symm
  simp [fenceJavaTail, startsWithChars, hne]

theorem startsWithChars_fjt_zero (m0 : Char) (rest : List Char) (h : m0 ≠ btick) :
    startsWithChars fenceJavaTail (m0 :: rest) = false := by
  have hne : ¬(btick = m0) := fun hh => h hh.symm
  simp [fenceJavaTail, startsWithChars, hne]

/-- Removing the second `java` fence after a closing fence and arbitrary
backtick-free prose: only the `java` fence is deleted, the closing fence
and the prose are kept. -/
theorem subFJAux_gap (m z : List Char) (hm : ∀ ch ∈ m, ch ≠ btick)
    (hmj : ∀ x ∈ m.take 1, x ≠ 'j') :
    subFJAux 0 (btick :: btick :: btick ::
        (m ++ (btick :: btick :: btick :: 'j' :: 'a' :: 'v' :: 'a' :: '\n' :: z))) =
      btick :: btick :: btick :: (m ++ subFJAux 0 z) := by
  cases m with
  | nil => rfl
  | cons m0 m' =>
    have hm0 : m0 ≠ btick := hm m0 (List.mem_cons_self _ _)
    have hj0 : m0 ≠ 'j' := hmj m0 (by simp)
    rw [subFJAux_emit _ _ (by
      rw [List.cons_append, startsWithChars_fjt_two m0 _ hj0]
      simp)]
    rw [subFJAux_emit _ _ (by
      rw [List.cons_append, startsWithChars_fjt_one m0 _ hm0]
      simp)]
    rw [subFJAux_emit _ _ (by
      rw [List.cons_append, startsWithChars_fjt_zero m0 _ hm0]
      simp)]
    rw [subFJAux_pass (m0 :: m') hm
      (btick :: btick :: btick :: 'j' :: 'a' :: 'v' :: 'a' :: '\n' :: z)]
    rw [subFJAux_fence_head]

theorem pyStrip_id_of_ends (x : List Char)
    (hh : x.head? = some btick) (hl : x.getLast? = some btick) : pyStrip x = x := by
  rw [pyStrip]
  have h1 : x.dropWhile isPyWs = x := by
    cases x with
    | nil => rfl
    | cons a l =>
      simp only [List.head?_cons, Option.some.injEq] at hh
      subst hh
      rw [List.dropWhile_cons, if_neg (by decide)]
  have h2 : x.reverse.dropWhile isPyWs = x.reverse := by
    rcases x.eq_nil_or_concat' with rfl | ⟨L, b, rfl⟩
    · rfl
    · have hb : b = btick := by
        rw [List.getLast?_append_of_ne_nil L (by simp)] at hl
        simpa using hl
      subst hb
      rw [List.reverse_append, List.reverse_singleton, List.singleton_append,
        List.dropWhile_cons, if_neg (by decide)]
  rw [h1, h2, List.reverse_reverse]

theorem fj8_cons (r : List Char) :
    "```java\n".data ++ r =
      btick :: btick :: btick :: 'j' :: 'a' :: 'v' :: 'a' :: '\n' :: r := rfl

theorem g3_cons (r : List Char) :
    "```".data ++ r = btick :: btick :: btick :: r := rfl

/-- Concrete completion text with two fenced blocks around prose. -/
def twoBlock : List Char :=
  ("```java\npackage a;\nclass A \x7b\x7d\n```\nIntro text\n```java\npackage b;\nclass B \x7b\x7d\n```").data

/-- C5 counterexample: on a completion holding two fenced blocks,
`_clean_generated_code` does not select the last block — the extracted
text still contains the first block's class body and the prose between
the blocks, and differs from the last block's content. -/
theorem response_extraction_keeps_all_blocks_cex :
    containsSub ("class A".data) (cleanGeneratedCode twoBlock ("X".data)) = true ∧
    containsSub ("Intro text".data) (cleanGeneratedCode twoBlock ("X".data)) = true ∧
    cleanGeneratedCode twoBlock ("X".data) ≠ ("package b;\nclass B \x7b\x7d\n".data) := by
  decide

/-- C5 amended: the extraction step has no notion of block selection: it
deletes the fence markers in place, keeps all remaining content in
order, and then cuts at the first package declaration.  For any
completion of the form first fenced java block + prose + second fenced
java block (blocks and prose backtick-free, prose not starting with
`java`, the retained text starting with a package-declaration match),
the cleaned result is the first block, the prose and the second block
concatenated — not the last block alone. -/
theorem response_extraction_keeps_all_blocks (b1 m b2 c : List Char)
    (hb1 : ∀ ch ∈ b1, ch ≠ btick) (hm : ∀ ch ∈ m, ch ≠ btick)
    (hb2 : ∀ ch ∈ b2, ch ≠ btick)
    (hmj : ∀ x ∈ m.take 1, x ≠ 'j')
    (hpkg : (reMatch rePackageDecl (b1 ++ (m ++ b2))).isSome = true) :
    cleanGeneratedCode
      ("```java\n".data ++ b1 ++ "```".data ++ m ++ "```java\n".data ++ b2 ++ "```".data) c
      = b1 ++ (m ++ b2) := by
  obtain ⟨⟨n, caps⟩, hmm2⟩ := Option.isSome_iff_exists.mp hpkg
  have hstrip : pyStrip
      ("```java\n".data ++ b1 ++ "```".data ++ m ++ "```java\n".data ++ b2 ++ "```".data) =
      ("```java\n".data ++ b1 ++ "```".data ++ m ++ "```java\n".data ++ b2 ++ "```".data) := by
    refine pyStrip_id_of_ends _ rfl ?_
    rw [List.append_assoc, List.append_assoc, List.append_assoc, List.append_assoc,
      List.append_assoc]
    have hGne : ("```".data : List Char) ≠ [] := by decide
    have h5 : b2 ++ "```".data ≠ [] := List.append_ne_nil_of_right_ne_nil b2 hGne
    have h4 : "```java\n".data ++ (b2 ++ "```".data) ≠ [] :=
      List.append_ne_nil_of_right_ne_nil _ h5
    have h3 : m ++ ("```java\n".data ++ (b2 ++ "```".data)) ≠ [] :=
      List.append_ne_nil_of_right_ne_nil m h4
    have h2 : "```".data ++ (m ++ ("```java\n".data ++ (b2 ++ "```".data))) ≠ [] :=
      List.append_ne_nil_of_right_ne_nil _ h3
    have h1 : b1 ++ ("```".data ++ (m ++ ("```java\n".data ++ (b2 ++ "```".data)))) ≠ [] :=
      List.append_ne_nil_of_right_ne_nil b1 h2
    rw [List.getLast?_append_of_ne_nil _ h1,
      List.getLast?_append_of_ne_nil _ h2,
      List.getLast?_append_of_ne_nil _ h3,
      List.getLast?_append_of_ne_nil _ h4,
      List.getLast?_append_of_ne_nil _ h5,
      List.getLast?_append_of_ne_nil _ hGne]
    decide
  have hsfj : subFenceJava
      ("```java\n".data ++ b1 ++ "```".data ++ m ++ "```java\n".data ++ b2 ++ "```".data) =
      b1 ++ ("```".data ++ (m ++ (b2 ++ "```".data))) := by
    rw [subFenceJava]
    rw [List.append_assoc, List.append_assoc, List.append_assoc, List.append_assoc,
      List.append_assoc]
    rw [fj8_cons, subFJAux_fence_head]
    rw [subFJAux_pass b1 hb1]
    rw [g3_cons]
    rw [show (m ++ ("```java\n".data ++ (b2 ++ "```".data))) =
      (m ++ (btick :: btick :: btick :: 'j' :: 'a' :: 'v' :: 'a' :: '\n' ::
        (b2 ++ "```".data))) from by rw [fj8_cons]]
    rw [subFJAux_gap m (b2 ++ "```".data) hm hmj]
    rw [subFJAux_pass b2 hb2]
    rw [show subFJAux 0 ("```".data) = "```".data from by decide]
    rw [g3_cons]
  have hsf : subFence (b1 ++ ("```".data ++ (m ++ (b2 ++ "```".data)))) =
      b1 ++ (m ++ b2) := by
    rw [subFence]
    rw [subFAux_pass b1 hb1]
    rw [g3_cons, subFAux_fence_head]
    rw [subFAux_pass m hm, subFAux_pass b2 hb2]
    rw [show subFAux 0 ("```".data) = [] from by decide]
    simp
  simp only [cleanGeneratedCode, hstrip, hsfj, hsf,
    reSearch_of_match_at_head rePackageDecl _ n caps hmm2, List.drop_zero]

/-- Witness for the amended C5 on the concrete two-block completion. -/
theorem response_extraction_keeps_all_blocks_witness :
    cleanGeneratedCode
      ("```java\n".data ++ ("package a;\nclass A \x7b\x7d\n".data) ++ "```".data ++
        ("\nIntro text\n".data) ++ "```java\n".data ++
        ("package b;\nclass B \x7b\x7d\n".data) ++ "```".data) ("X".data)
      = ("package a;\nclass A \x7b\x7d\n".data) ++
        (("\nIntro text\n".data) ++ ("package b;\nclass B \x7b\x7d\n".data)) :=
  response_extraction_keeps_all_blocks
    ("package a;\nclass A \x7b\x7d\n".data) ("\nIntro text\n".data)
    ("package b;\nclass B \x7b\x7d\n".data) ("X".data)
    (by decide) (by decide) (by decide) (by decide) (by decide)

end TCG
